import Mathlib

/-!
Verification development for the swmfpy core (swmfpy.py and swmfpy/spdf.py).

The Python functions are shallowly embedded as executable Lean definitions:

* strings are Lean `String`s and Python `str.split()` is modelled character
  by character (`splitAcc` / `splitWords`);
* the PARAM.in patch engine `replace_paramin_option` is modelled as a fold
  over the line list carrying the `command` state variable, returning
  `Except Unit` (an `IndexError` in the Python code becomes `.error ()`);
* the pandas-based OMNI CSV reader is modelled on parsed row tables with
  `Option ℚ` cells (a missing cell / NaN is `none`);
* the WDC reader and the SPDF month enumeration are modelled with explicit
  record types and calendar arithmetic.
-/

/-- Whitespace characters recognised by Python `str.split()` (ASCII range). -/
def pyWs (c : Char) : Bool :=
  c == ' ' || c == '\t' || c == '\n' || c == '\x0b' || c == '\x0c' || c == '\r'

/-- Core of Python `str.split()`: split a character list into maximal runs of
non-whitespace characters.  `acc` holds the (reversed) current token. -/
def splitAcc : List Char → List Char → List (List Char)
  | acc, [] => if acc = [] then [] else [acc.reverse]
  | acc, c :: cs =>
    if pyWs c then
      if acc = [] then splitAcc [] cs else acc.reverse :: splitAcc [] cs
    else splitAcc (c :: acc) cs

/-- Python `line.split()` on strings. -/
def splitWords (s : String) : List String :=
  (splitAcc [] s.data).map String.mk

/-- Python slice `s[n:]` (by code point, like Python). -/
def strDrop (s : String) (n : Nat) : String :=
  String.mk (s.data.drop n)

/-- Python slice `s[:-n]` for positive `n` (drop the last `n` code points). -/
def strDropRight (s : String) (n : Nat) : String :=
  String.mk (s.data.take (s.data.length - n))

/-- Python slice `s[-n:]` for positive `n` (keep the last `n` code points). -/
def strTakeRight (s : String) (n : Nat) : String :=
  String.mk (s.data.drop (s.data.length - n))

/-- Python slice `s[:n]`. -/
def strTake (s : String) (n : Nat) : String :=
  String.mk (s.data.take n)

/-- Accumulator loop for parsing an unsigned decimal numeral. -/
def parseNatAux : List Char → Nat → Option Nat
  | [], acc => some acc
  | c :: cs, acc =>
    if c.isDigit then parseNatAux cs (acc * 10 + (c.toNat - '0'.toNat)) else none

/-- Parse a nonempty all-digit character list as a natural number. -/
def parseNatList (cs : List Char) : Option Nat :=
  if cs = [] then none else parseNatAux cs 0

/-- Python `int(token)` restricted to an optional minus sign followed by
digits (the only shapes that occur in the files the code reads). -/
def pyInt (s : String) : Option Int :=
  match s.data with
  | '-' :: cs => (parseNatList cs).map (fun n => -(n : Int))
  | cs => (parseNatList cs).map (fun n => (n : Int))

/-- Python `int(token)` for unsigned tokens. -/
def pyNat (s : String) : Option Nat :=
  parseNatList s.data

/-!
PARAM.in patch engine, embedded from `swmfpy.replace_paramin_option`
(src/swmfpy.py lines 226-268).  The `replace` dictionary-of-dictionaries is
modelled as an ordered association list (Python dicts preserve insertion
order and have pairwise distinct keys).  Replacement values are strings:
`newline += "\t\t\t" + param` requires `str` values (the code's documented
contract is a "Dictionary of strings").
-/

/-- A replacement specification: command name to ordered parameter/value list. -/
abbrev RSpec := List (String × List (String × String))

/-- Python `k in replace.keys()`. -/
def hasKey (replace : RSpec) (k : String) : Bool :=
  (replace.lookup k).isSome

/-- Final effect of the inner Python loop
`for param, value in replace[command].items()`: the last pair whose
parameter equals the line's second token wins. -/
def lastMatch (params : List (String × String)) (w1 : String) :
    Option (String × String) :=
  params.foldl (fun acc pv => if pv.1 = w1 then some pv else acc) none

/-- The `elif command in replace.keys()` branch of the engine, acting on one
line.  `words[1]` raises `IndexError` (here `.error ()`) when the line has
fewer than two tokens; the access only happens when the parameter loop body
runs at least once, i.e. when `replace[command]` is nonempty. -/
def paramStep (replace : RSpec) (cmd : Option String) (line : String)
    (words : List String) : Except Unit (Option String × String) :=
  match cmd with
  | none => .ok (cmd, line)
  | some c =>
    match replace.lookup c with
    | none => .ok (cmd, line)
    | some params =>
      match params with
      | [] => .ok (cmd, line)
      | _ :: _ =>
        match words.get? 1 with
        | none => .error ()
        | some w1 =>
          match lastMatch params w1 with
          | none => .ok (cmd, line)
          | some pv => .ok (cmd, pv.2 ++ "\t\t\t" ++ pv.1 ++ "\n")

/-- One step of the engine's loop body: dispatch on whether the line's first
token is a key of the replacement spec. -/
def processLine (replace : RSpec) (cmd : Option String) (line : String) :
    Except Unit (Option String × String) :=
  match (splitWords line).head? with
  | some w0 =>
    if hasKey replace w0 then .ok (some w0, line)
    else paramStep replace cmd line (splitWords line)
  | none => paramStep replace cmd line (splitWords line)

/-- The engine's `for line_num, line in enumerate(lines)` loop, carrying the
`command` state variable. -/
def replaceGo (replace : RSpec) : Option String → List String →
    Except Unit (List String)
  | _, [] => .ok []
  | cmd, l :: ls =>
    match processLine replace cmd l with
    | .error e => .error e
    | .ok (cmd', l') =>
      match replaceGo replace cmd' ls with
      | .error e => .error e
      | .ok out => .ok (l' :: out)

/-- `swmfpy.replace_paramin_option`, pure core: takes the file's lines and
returns the patched line list (also what the function writes out and
returns); `command` starts as Python `None`. -/
def replace_paramin_option (replace : RSpec) (lines : List String) :
    Except Unit (List String) :=
  replaceGo replace none lines

/-- The state transition of the `command` variable induced by one line. -/
def nextCmdState (replace : RSpec) (s : Option String) (line : String) :
    Option String :=
  match (splitWords line).head? with
  | some w0 => if hasKey replace w0 then some w0 else s
  | none => s

/-- Fold of `nextCmdState` over a list of lines. -/
def cmdFold (replace : RSpec) : Option String → List String → Option String
  | s, [] => s
  | s, l :: ls => cmdFold replace (nextCmdState replace s l) ls

/-- The value of the `command` variable when the engine reaches line `i`
(counting from 0), assuming no earlier line raised. -/
def cmdStateAt (replace : RSpec) (lines : List String) (i : Nat) :
    Option String :=
  cmdFold replace none (lines.take i)

/-- Whether a line's first whitespace-delimited token is a key of the spec. -/
def keyLineB (replace : RSpec) (line : String) : Bool :=
  match (splitWords line).head? with
  | some w0 => hasKey replace w0
  | none => false

/-- First whitespace-delimited token of a line, if any. -/
def firstTok (line : String) : Option String :=
  (splitWords line).head?

/-- Whether a token is a command token in the sense of the spec's data model
(it begins with the marker character of PARAM.in commands). -/
def isCmdTok (w : String) : Bool :=
  match w.data with
  | c :: _ => c == '#'
  | [] => false

/-- Command token of the segment containing line `i`: the first token of the
last line at index `≤ i` whose first token is a command token. -/
def segCommand (lines : List String) (i : Nat) : Option String :=
  (List.range (i + 1)).reverse.findSome? (fun j =>
    match firstTok (lines.getD j "") with
    | some w => if isCmdTok w then some w else none
    | none => none)

/-- A line of the output is a replacement line: `value`, three tabs, the
parameter name, newline, for some registered (parameter, value) pair. -/
def isRepl (replace : RSpec) (l : String) : Prop :=
  ∃ c params p v, replace.lookup c = some params ∧ (p, v) ∈ params ∧
    l = v ++ "\t\t\t" ++ p ++ "\n"

/-- C2: applying the engine with spec `#DOAMR / DnAmr := "200"` to a document
with two separate `#DOAMR` segments, each containing a line whose second
token is `DnAmr`, replaces both of those lines with `200\t\t\tDnAmr`
(each stored line carries its trailing newline). -/
theorem C2_repeat_commands :
    replace_paramin_option [("#DOAMR", [("DnAmr", "200")])]
      ["#DOAMR\n", "100 DnAmr\n", "#DOAMR\n", "300 DnAmr\n"] =
    Except.ok ["#DOAMR\n", "200\t\t\tDnAmr\n", "#DOAMR\n", "200\t\t\tDnAmr\n"] := by
  rfl

/-- The output line produced for input line `lin` when it is replaced: some
registered (parameter, value) pair has its parameter equal to `lin`'s second
whitespace-delimited token, and the output is value, three tabs, parameter,
newline. -/
def isReplOf (replace : RSpec) (lin lout : String) : Prop :=
  ∃ c params p v, replace.lookup c = some params ∧ (p, v) ∈ params ∧
    (splitWords lin).get? 1 = some p ∧ lout = v ++ "\t\t\t" ++ p ++ "\n"

theorem lastMatch_aux (w1 : String) :
    ∀ (params : List (String × String)) (acc pv : String × String),
      params.foldl (fun acc pv => if pv.1 = w1 then some pv else acc) (some acc) =
        some pv →
      (pv ∈ params ∧ pv.1 = w1) ∨ acc = pv := by
  intro params
  induction params with
  | nil => intro acc pv h; right; exact (Option.some.inj h).symm ▸ rfl
  | cons hd tl ih =>
    intro acc pv h
    simp only [List.foldl_cons] at h
    by_cases hw : hd.1 = w1
    · rw [if_pos hw] at h
      rcases ih hd pv h with h' | h'
      · exact Or.inl ⟨List.mem_cons_of_mem hd h'.1, h'.2⟩
      · exact Or.inl ⟨h' ▸ List.mem_cons_self hd tl, h' ▸ hw⟩
    · rw [if_neg hw] at h
      rcases ih acc pv h with h' | h'
      · exact Or.inl ⟨List.mem_cons_of_mem hd h'.1, h'.2⟩
      · exact Or.inr h'
theorem lastMatch_mem {params : List (String × String)} {w1 : String}
    {pv : String × String} (h : lastMatch params w1 = some pv) :
    pv ∈ params ∧ pv.1 = w1 := by
  have aux : ∀ (ps : List (String × String)) (acc : Option (String × String))
      (pv : String × String),
      ps.foldl (fun acc pv => if pv.1 = w1 then some pv else acc) acc = some pv →
      (pv ∈ ps ∧ pv.1 = w1) ∨ acc = some pv := by
    intro ps
    induction ps with
    | nil => intro acc pv h; exact Or.inr h
    | cons hd tl ih =>
      intro acc pv h
      simp only [List.foldl_cons] at h
      by_cases hw : hd.1 = w1
      · rw [if_pos hw] at h
        rcases ih (some hd) pv h with h' | h'
        · exact Or.inl ⟨List.mem_cons_of_mem hd h'.1, h'.2⟩
        · have he : hd = pv := Option.some.inj h'
          exact Or.inl ⟨he ▸ List.mem_cons_self hd tl, he ▸ hw⟩
      · rw [if_neg hw] at h
        rcases ih acc pv h with h' | h'
        · exact Or.inl ⟨List.mem_cons_of_mem hd h'.1, h'.2⟩
        · exact Or.inr h'
  rcases aux params none pv h with h' | h'
  · exact h'
  · exact Option.noConfusion h'

theorem paramStep_ok_state {replace : RSpec} {cmd : Option String}
    {line : String} {words : List String} {cmd' : Option String} {l' : String}
    (h : paramStep replace cmd line words = .ok (cmd', l')) : cmd' = cmd := by
  unfold paramStep at h
  repeat' split at h
  all_goals try exact Except.noConfusion h
  all_goals injection h with h2
  all_goals injection h2 with h3 h4
  all_goals exact h3.symm

theorem processLine_none (replace : RSpec) (l : String) :
    processLine replace none l = .ok (nextCmdState replace none l, l) := by
  unfold processLine nextCmdState
  rcases hh : (splitWords l).head? with _ | w0
  · rfl
  · by_cases hk : hasKey replace w0 = true
    · simp [hk]
    · simp [hk, paramStep]

theorem nextCmdState_not_key {replace : RSpec} {l : String}
    (h : keyLineB replace l = false) (s : Option String) :
    nextCmdState replace s l = s := by
  unfold keyLineB at h
  unfold nextCmdState
  rcases hh : (splitWords l).head? with _ | w0
  · rfl
  · rw [hh] at h
    have h' : hasKey replace w0 = false := h
    exact if_neg (by simp [h'])

theorem processLine_state {replace : RSpec} {cmd cmd' : Option String}
    {l l' : String} (h : processLine replace cmd l = .ok (cmd', l')) :
    cmd' = nextCmdState replace cmd l := by
  unfold processLine at h
  unfold nextCmdState
  rcases hh : (splitWords l).head? with _ | w0
  · rw [hh] at h
    exact paramStep_ok_state h
  · rw [hh] at h
    by_cases hk : hasKey replace w0 = true
    · have h2 : (Except.ok ((some w0 : Option String), l) :
          Except Unit (Option String × String)) = Except.ok (cmd', l') := by
        rw [← h]
        exact (if_pos hk).symm
      injection h2 with h3
      injection h3 with h4 h5
      exact h4.symm.trans (if_pos hk).symm
    · have h2 : paramStep replace cmd l (splitWords l) = Except.ok (cmd', l') := by
        rw [← h]
        exact (if_neg (by simp [hk])).symm
      exact (paramStep_ok_state h2).trans (if_neg (by simp [hk])).symm

theorem paramStep_shape {replace : RSpec} {cmd : Option String} {line : String}
    {cmd' : Option String} {l' : String}
    (h : paramStep replace cmd line (splitWords line) = .ok (cmd', l')) :
    l' = line ∨ isReplOf replace line l' := by
  unfold paramStep at h
  repeat' split at h
  all_goals try exact Except.noConfusion h
  all_goals injection h with h2
  all_goals injection h2 with h3 h4
  case _ => left; exact h4.symm
  case _ => left; exact h4.symm
  case _ => left; exact h4.symm
  case _ => left; exact h4.symm
  case _ =>
    rename_i x3 c x2 params hd tl hlookup x1 w1 hget x0 pv hlast
    obtain ⟨hmem, hfst⟩ := lastMatch_mem hlast
    right
    refine ⟨c, hd :: tl, pv.1, pv.2, hlookup, by simpa using hmem, ?_, h4.symm⟩
    rw [hfst]
    exact hget

theorem processLine_shape {replace : RSpec} {cmd cmd' : Option String}
    {l l' : String} (h : processLine replace cmd l = .ok (cmd', l')) :
    l' = l ∨ isReplOf replace l l' := by
  unfold processLine at h
  rcases hh : (splitWords l).head? with _ | w0 <;> rw [hh] at h
  · exact paramStep_shape h
  · by_cases hk : hasKey replace w0 = true
    · have h2 : (Except.ok ((some w0 : Option String), l) :
          Except Unit (Option String × String)) = Except.ok (cmd', l') := by
        rw [← h]
        exact (if_pos hk).symm
      injection h2 with h3
      injection h3 with h4 h5
      exact Or.inl h5.symm
    · have h2 : paramStep replace cmd l (splitWords l) = Except.ok (cmd', l') := by
        rw [← h]
        exact (if_neg (by simp [hk])).symm
      exact paramStep_shape h2

theorem replaceGo_cons_ok {replace : RSpec} {s : Option String} {l : String}
    {ls out : List String}
    (h : replaceGo replace s (l :: ls) = .ok out) :
    ∃ s' l' out', processLine replace s l = .ok (s', l') ∧
      replaceGo replace s' ls = .ok out' ∧ out = l' :: out' := by
  unfold replaceGo at h
  rcases hp : processLine replace s l with e | p
  · rw [hp] at h
    exact Except.noConfusion h
  · obtain ⟨s', l'⟩ := p
    rw [hp] at h
    have h2 : (match replaceGo replace s' ls with
        | .error e => (.error e : Except Unit (List String))
        | .ok out => .ok (l' :: out)) = .ok out := h
    rcases hgo : replaceGo replace s' ls with e | out'
    · rw [hgo] at h2
      exact Except.noConfusion h2
    · rw [hgo] at h2
      exact ⟨s', l', out', rfl, hgo, (Except.ok.inj h2).symm⟩

theorem replaceGo_cons_error {replace : RSpec} {s : Option String} {l : String}
    {ls : List String} {e : Unit}
    (h : processLine replace s l = .error e) :
    replaceGo replace s (l :: ls) = .error e := by
  unfold replaceGo
  rw [h]

theorem replaceGo_nil_ok {replace : RSpec} {s : Option String}
    {out : List String} (h : replaceGo replace s [] = .ok out) : out = [] := by
  exact (Except.ok.inj h).symm

theorem paramStep_error {replace : RSpec} {c : String} {line : String}
    {words : List String} {params : List (String × String)}
    (hlook : replace.lookup c = some params) (hne : params ≠ [])
    (hget : words.get? 1 = none) :
    paramStep replace (some c) line words = .error () := by
  unfold paramStep
  show (match List.lookup c replace with
      | none => (Except.ok (some c, line) : Except Unit (Option String × String))
      | some params =>
        match params with
        | [] => Except.ok (some c, line)
        | _ :: _ =>
          match words.get? 1 with
          | none => Except.error ()
          | some w1 =>
            match lastMatch params w1 with
            | none => Except.ok (some c, line)
            | some pv => Except.ok (some c, pv.2 ++ "\t\t\t" ++ pv.1 ++ "\n")) =
      Except.error ()
  rw [hlook]
  obtain ⟨q, qs, rfl⟩ := List.exists_cons_of_ne_nil hne
  show (match words.get? 1 with
      | none => (Except.error () : Except Unit (Option String × String))
      | some w1 =>
        match lastMatch (q :: qs) w1 with
        | none => Except.ok (some c, line)
        | some pv => Except.ok (some c, pv.2 ++ "\t\t\t" ++ pv.1 ++ "\n")) =
      Except.error ()
  rw [hget]

/-- C1 (amended): lines preceding the first line whose first token is a key
of the replacement spec are always copied unchanged; a line can only be
modified when some earlier line's first token was a key of the spec.  (The
claim's stronger reading is false: the command state is not reset by later
command lines whose token is not a key, see the counterexample.) -/
theorem C1_frame_amended (replace : RSpec) :
    ∀ (lines out : List String),
      replace_paramin_option replace lines = Except.ok out →
      ∀ i, (∀ j, j < i → keyLineB replace (lines.getD j "") = false) →
      out.getD i "" = lines.getD i "" := by
  intro lines
  induction lines with
  | nil =>
    intro out h i _
    have h0 : out = [] := replaceGo_nil_ok h
    subst h0
    rfl
  | cons l ls ih =>
    intro out h i hpre
    obtain ⟨s', l', out', hp, hgo, hout⟩ := replaceGo_cons_ok h
    rw [processLine_none] at hp
    injection hp with hp2
    injection hp2 with hs hl
    subst hout
    cases i with
    | zero => simpa [List.getD] using hl.symm
    | succ j =>
      have hkey : keyLineB replace l = false := hpre 0 (Nat.succ_pos j)
      have hs' : s' = none := by rw [← hs, nextCmdState_not_key hkey]
      subst hs'
      have hres := ih out' hgo j (fun k hk => hpre (k + 1) (Nat.succ_lt_succ hk))
      simpa [List.getD] using hres

/-- Spec and frame data for the PARAM.in witnesses. -/
def RW1 : RSpec := [("#DOAMR", [("DnAmr", "200")])]

/-- Input lines for the PARAM.in witnesses. -/
def LW1 : List String := ["alpha beta\n", "#DOAMR\n", "10 DnAmr\n"]

/-- Expected output lines for the PARAM.in witnesses. -/
def OW1 : List String := ["alpha beta\n", "#DOAMR\n", "200\t\t\tDnAmr\n"]

/-- C1 witness: a concrete run where line 1 has no earlier key-command line
and is returned unchanged. -/
theorem C1_frame_witness :
    replace_paramin_option RW1 LW1 = Except.ok OW1 ∧
    OW1.getD 1 "" = LW1.getD 1 "" :=
  ⟨rfl, C1_frame_amended RW1 LW1 OW1 rfl 1
    (fun j hj => by
      have hj0 : j = 0 := Nat.lt_one_iff.mp hj
      subst hj0
      decide)⟩

/-- C1 counterexample: with spec key `#DOAMR` only, the line `5 DnAmr` lies
in a segment whose command token is `#OTHER` (not a key of the spec), yet it
is replaced: the engine never resets `command` on non-key command lines. -/
theorem C1_frame_counterexample :
    replace_paramin_option RW1 ["#DOAMR\n", "100 DnAmr\n", "#OTHER T\n", "5 DnAmr\n"] =
      Except.ok ["#DOAMR\n", "200\t\t\tDnAmr\n", "#OTHER T\n", "200\t\t\tDnAmr\n"] ∧
    segCommand ["#DOAMR\n", "100 DnAmr\n", "#OTHER T\n", "5 DnAmr\n"] 3 = some "#OTHER" ∧
    hasKey RW1 "#OTHER" = false ∧
    (["#DOAMR\n", "200\t\t\tDnAmr\n", "#OTHER T\n", "200\t\t\tDnAmr\n"] : List String).getD 3 "" ≠
      (["#DOAMR\n", "100 DnAmr\n", "#OTHER T\n", "5 DnAmr\n"] : List String).getD 3 "" := by
  refine ⟨rfl, rfl, rfl, ?_⟩
  decide

/-- C6: on success the engine returns exactly as many lines as it read, in
the same positions: the line at index i of the output is either the input
line at index i or the replacement generated from that input line. -/
theorem C6_line_count_order (replace : RSpec) (lines out : List String)
    (h : replace_paramin_option replace lines = Except.ok out) :
    out.length = lines.length ∧
    ∀ i, out.getD i "" = lines.getD i "" ∨
      isReplOf replace (lines.getD i "") (out.getD i "") := by
  have gen : ∀ (ls : List String) (s : Option String) (o : List String),
      replaceGo replace s ls = .ok o →
      o.length = ls.length ∧
      ∀ i, o.getD i "" = ls.getD i "" ∨
        isReplOf replace (ls.getD i "") (o.getD i "") := by
    intro ls
    induction ls with
    | nil =>
      intro s o h0
      have h1 : o = [] := replaceGo_nil_ok h0
      subst h1
      exact ⟨rfl, fun i => Or.inl rfl⟩
    | cons l ls2 ih =>
      intro s o h0
      obtain ⟨s', l', out', hp, hgo, hout⟩ := replaceGo_cons_ok h0
      subst hout
      obtain ⟨hlen, hfr⟩ := ih s' out' hgo
      refine ⟨by simpa using hlen, ?_⟩
      intro i
      cases i with
      | zero =>
        rcases processLine_shape hp with he | hr
        · left; simpa [List.getD] using he
        · right; simpa [List.getD] using hr
      | succ j => simpa [List.getD] using hfr j
  exact gen lines none out h

/-- C6 witness: a concrete run with the length part of the conclusion. -/
theorem C6_line_count_witness :
    replace_paramin_option RW1 LW1 = Except.ok OW1 ∧ OW1.length = LW1.length :=
  ⟨rfl, (C6_line_count_order RW1 LW1 OW1 rfl).1⟩

theorem replaceGo_error_at (replace : RSpec) :
    ∀ (lines : List String) (s : Option String) (i : Nat) (c : String)
      (params : List (String × String)),
      cmdFold replace s (lines.take i) = some c →
      replace.lookup c = some params → params ≠ [] →
      (splitWords (lines.getD i "")).length < 2 →
      (∀ w0, (splitWords (lines.getD i "")).head? = some w0 →
        hasKey replace w0 = false) →
      i < lines.length →
      ∃ e, replaceGo replace s lines = .error e := by
  intro lines
  induction lines with
  | nil =>
    intro s i c params _ _ _ _ _ hlt
    exact absurd hlt (Nat.not_lt_zero i)
  | cons l ls ih =>
    intro s i c params hst hlook hne hlen hnk hlt
    cases i with
    | zero =>
      have hs : s = some c := hst
      subst hs
      have hget : (splitWords l).get? 1 = none := by
        apply List.get?_eq_none.mpr
        have h1 : (splitWords l).length < 2 := hlen
        exact Nat.lt_succ_iff.mp h1
      have hperr : processLine replace (some c) l = .error () := by
        unfold processLine
        rcases hh : (splitWords l).head? with _ | w0
        · exact paramStep_error hlook hne hget
        · have hk : hasKey replace w0 = false := hnk w0 hh
          have hbody : (if hasKey replace w0 = true
              then (Except.ok (some w0, l) : Except Unit (Option String × String))
              else paramStep replace (some c) l (splitWords l)) = .error () := by
            rw [if_neg (by simp [hk])]
            exact paramStep_error hlook hne hget
          exact hbody
      exact ⟨(), replaceGo_cons_error hperr⟩
    | succ j =>
      rcases hp : processLine replace s l with e | p
      · exact ⟨e, replaceGo_cons_error hp⟩
      · obtain ⟨s', l'⟩ := p
        have hs' : s' = nextCmdState replace s l := processLine_state hp
        have hst' : cmdFold replace s' (ls.take j) = some c := by
          rw [hs']
          exact hst
        obtain ⟨e, he⟩ := ih s' j c params hst' hlook hne hlen
          (fun w0 hw => hnk w0 hw) (Nat.lt_of_succ_lt_succ hlt)
        refine ⟨e, ?_⟩
        unfold replaceGo
        rw [hp]
        have hgoal : (match replaceGo replace s' ls with
            | .error e2 => (.error e2 : Except Unit (List String))
            | .ok out => .ok (l' :: out)) = Except.error e := by
          rw [he]
        exact hgoal

/-- C10 (amended): the engine raises (here: returns an error, producing no
output) on a document containing a line with fewer than two tokens at a
position where the command state is a key of the spec, provided the spec's
parameter mapping for that command is nonempty and the line is not itself a
one-token key command line.  (The unconditional claim is false: with an
empty parameter mapping the loop body never runs and `words[1]` is never
touched, see the counterexample.) -/
theorem C10_short_line_amended (replace : RSpec) (lines : List String)
    (i : Nat) (c : String) (params : List (String × String))
    (hst : cmdStateAt replace lines i = some c)
    (hlook : replace.lookup c = some params) (hne : params ≠ [])
    (hlen : (splitWords (lines.getD i "")).length < 2)
    (hnk : ∀ w0, (splitWords (lines.getD i "")).head? = some w0 →
      hasKey replace w0 = false)
    (hlt : i < lines.length) :
    ∃ e, replace_paramin_option replace lines = .error e :=
  replaceGo_error_at replace lines none i c params hst hlook hne hlen hnk hlt

/-- C10 witness: a blank line inside a `#DOAMR` segment (nonempty parameter
mapping) makes the whole run fail with no output. -/
theorem C10_short_line_witness :
    ∃ e, replace_paramin_option RW1 ["#DOAMR\n", "\n"] = Except.error e :=
  C10_short_line_amended RW1 ["#DOAMR\n", "\n"] 1 "#DOAMR" [("DnAmr", "200")]
    rfl rfl (by decide) (by decide)
    (fun w0 hw => by
      rw [show (splitWords ((["#DOAMR\n", "\n"] : List String).getD 1 "")).head? =
        none from rfl] at hw
      exact Option.noConfusion hw)
    (by decide)

/-- C10 counterexample: a document with a blank line at a position where the
command state `#A` is a key of the spec, but the spec maps `#A` to an empty
parameter mapping: the engine succeeds instead of raising, refuting the
unconditional claim. -/
theorem C10_short_line_counterexample :
    replace_paramin_option [("#A", ([] : List (String × String)))]
      ["#A\n", "\n"] = Except.ok ["#A\n", "\n"] ∧
    cmdStateAt [("#A", ([] : List (String × String)))] ["#A\n", "\n"] 1 =
      some "#A" ∧
    hasKey [("#A", ([] : List (String × String)))] "#A" = true ∧
    (splitWords ((["#A\n", "\n"] : List String).getD 1 "")).length < 2 := by
  refine ⟨rfl, rfl, rfl, ?_⟩
  decide

theorem splitAcc_token_chunk :
    ∀ (t acc rest : List Char), (∀ c ∈ t, pyWs c = false) →
      splitAcc acc (t ++ rest) = splitAcc (t.reverse ++ acc) rest := by
  intro t
  induction t with
  | nil => intro acc rest _; simp
  | cons c t' ih =>
    intro acc rest hno
    have hc : pyWs c = false := hno c (List.mem_cons_self c t')
    have ht' : ∀ d ∈ t', pyWs d = false := fun d hd =>
      hno d (List.mem_cons_of_mem c hd)
    show splitAcc acc (c :: (t' ++ rest)) = splitAcc ((c :: t').reverse ++ acc) rest
    rw [splitAcc, if_neg (by simp [hc]), ih (c :: acc) rest ht']
    simp

theorem splitAcc_ws_step {c : Char} (hc : pyWs c = true) {acc : List Char}
    (hacc : acc ≠ []) (rest : List Char) :
    splitAcc acc (c :: rest) = acc.reverse :: splitAcc [] rest := by
  rw [splitAcc, if_pos (by simp [hc]), if_neg hacc]

theorem splitAcc_ws_nil {c : Char} (hc : pyWs c = true) (rest : List Char) :
    splitAcc [] (c :: rest) = splitAcc [] rest := by
  rw [splitAcc, if_pos (by simp [hc]), if_pos rfl]

theorem splitAcc_two_tokens {v p : List Char}
    (hv : v ≠ []) (hvno : ∀ c ∈ v, pyWs c = false)
    (hp : p ≠ []) (hpno : ∀ c ∈ p, pyWs c = false) :
    splitAcc [] (v ++ '\t' :: '\t' :: '\t' :: (p ++ ['\n'])) = [v, p] := by
  rw [splitAcc_token_chunk v [] _ hvno]
  rw [List.append_nil]
  rw [splitAcc_ws_step (by decide) (by simpa using hv)]
  rw [splitAcc_ws_nil (by decide), splitAcc_ws_nil (by decide)]
  rw [splitAcc_token_chunk p [] ['\n'] hpno]
  rw [List.append_nil]
  rw [splitAcc_ws_step (by decide) (by simpa using hp)]
  rw [List.reverse_reverse, List.reverse_reverse]
  rfl

theorem splitWords_repl {v p : String}
    (hv : v.data ≠ []) (hvno : ∀ c ∈ v.data, pyWs c = false)
    (hp : p.data ≠ []) (hpno : ∀ c ∈ p.data, pyWs c = false) :
    splitWords (v ++ "\t\t\t" ++ p ++ "\n") = [v, p] := by
  unfold splitWords
  have hdata : (v ++ "\t\t\t" ++ p ++ "\n").data =
      v.data ++ '\t' :: '\t' :: '\t' :: (p.data ++ ['\n']) := by
    rw [String.data_append, String.data_append, String.data_append]
    rw [show ("\t\t\t" : String).data = ['\t', '\t', '\t'] from rfl]
    rw [show ("\n" : String).data = ['\n'] from rfl]
    simp
  rw [hdata, splitAcc_two_tokens hv hvno hp hpno]
  rfl

theorem splitAcc_mem :
    ∀ (cs acc t : List Char), (∀ c ∈ acc, pyWs c = false) →
      t ∈ splitAcc acc cs → t ≠ [] ∧ ∀ c ∈ t, pyWs c = false := by
  intro cs
  induction cs with
  | nil =>
    intro acc t hacc ht
    rw [splitAcc] at ht
    by_cases hn : acc = []
    · rw [if_pos hn] at ht
      exact absurd ht (List.not_mem_nil t)
    · rw [if_neg hn] at ht
      have h1 : t = acc.reverse := List.mem_singleton.mp ht
      subst h1
      refine ⟨by simpa using hn, fun c hc => hacc c (List.mem_reverse.mp hc)⟩
  | cons c cs' ih =>
    intro acc t hacc ht
    rw [splitAcc] at ht
    by_cases hw : pyWs c = true
    · rw [if_pos (by simp [hw])] at ht
      by_cases hn : acc = []
      · rw [if_pos hn] at ht
        exact ih [] t (by simp) ht
      · rw [if_neg hn] at ht
        rcases List.mem_cons.mp ht with h1 | h1
        · subst h1
          refine ⟨by simpa using hn, fun d hd => hacc d (List.mem_reverse.mp hd)⟩
        · exact ih [] t (by simp) h1
    · rw [if_neg (by simpa using hw)] at ht
      refine ih (c :: acc) t ?_ ht
      intro d hd
      rcases List.mem_cons.mp hd with h1 | h1
      · subst h1; simpa using hw
      · exact hacc d h1

theorem splitWords_token_prop {s w : String} (hw : w ∈ splitWords s) :
    w.data ≠ [] ∧ ∀ c ∈ w.data, pyWs c = false := by
  unfold splitWords at hw
  obtain ⟨t, ht, rfl⟩ := List.mem_map.mp hw
  exact splitAcc_mem s.data [] t (by simp) ht

theorem lookup_mem {replace : RSpec} {c : String}
    {params : List (String × String)}
    (h : replace.lookup c = some params) : (c, params) ∈ replace := by
  induction replace with
  | nil => exact Option.noConfusion h
  | cons pr rest ih =>
    obtain ⟨k, v⟩ := pr
    simp only [List.lookup] at h
    by_cases hck : (c == k) = true
    · rw [hck] at h
      have hv : v = params := Option.some.inj h
      have hk : c = k := eq_of_beq hck
      subst hv
      subst hk
      exact List.mem_cons_self _ _
    · rw [Bool.eq_false_iff.mpr hck] at h
      exact List.mem_cons_of_mem _ (ih h)

/-- Values of a replacement spec are well formed for idempotence: every
registered value is a nonempty whitespace-free token that is not itself a
key of the spec. -/
def goodValues (replace : RSpec) : Prop :=
  ∀ pr ∈ replace, ∀ pv ∈ pr.2,
    (pv.2 : String).data ≠ [] ∧ (∀ c ∈ (pv.2 : String).data, pyWs c = false) ∧
    hasKey replace pv.2 = false

theorem paramStep_ok_cases {replace : RSpec} {cmd : Option String}
    {line : String} {words : List String} {cmd' : Option String} {l' : String}
    (h : paramStep replace cmd line words = .ok (cmd', l')) :
    l' = line ∨ ∃ c params w1 pv, cmd = some c ∧
      replace.lookup c = some params ∧ params ≠ [] ∧
      words.get? 1 = some w1 ∧ lastMatch params w1 = some pv ∧
      l' = pv.2 ++ "\t\t\t" ++ pv.1 ++ "\n" := by
  unfold paramStep at h
  repeat' split at h
  all_goals try exact Except.noConfusion h
  all_goals injection h with h2
  all_goals injection h2 with h3 h4
  case _ => left; exact h4.symm
  case _ => left; exact h4.symm
  case _ => left; exact h4.symm
  case _ => left; exact h4.symm
  case _ =>
    rename_i x3 c x2 params hd tl hlookup x1 w1 hget x0 pv hlast
    right
    exact ⟨c, hd :: tl, w1, pv, rfl, hlookup, by simp, hget, hlast, h4.symm⟩

theorem processLine_idem {replace : RSpec} (hgood : goodValues replace)
    {s s' : Option String} {l l' : String}
    (h : processLine replace s l = .ok (s', l')) :
    processLine replace s l' = .ok (s', l') := by
  unfold processLine at h
  rcases hh : (splitWords l).head? with _ | w0
  · rw [hh] at h
    have hempty : splitWords l = [] := List.head?_eq_none_iff.mp hh
    have hs : s' = s := paramStep_ok_state h
    rcases paramStep_ok_cases h with hl |
      ⟨c, params, w1, pv, hcmd, hlook, hne, hget, hlast, hrepl⟩
    · rw [hl, hs]
      unfold processLine
      rw [hh]
      rw [hl, hs] at h
      exact h
    · rw [hempty] at hget
      exact Option.noConfusion hget
  · rw [hh] at h
    by_cases hk : hasKey replace w0 = true
    · have h2 : (Except.ok ((some w0 : Option String), l) :
          Except Unit (Option String × String)) = Except.ok (s', l') := by
        rw [← h]
        exact (if_pos hk).symm
      injection h2 with h3
      injection h3 with h4 h5
      rw [← h5, ← h4]
      unfold processLine
      rw [hh]
      exact if_pos hk
    · have h2 : paramStep replace s l (splitWords l) = Except.ok (s', l') := by
        rw [← h]
        exact (if_neg (by simp [hk])).symm
      have hs : s' = s := paramStep_ok_state h2
      rcases paramStep_ok_cases h2 with hl |
        ⟨c, params, w1, pv, hcmd, hlook, hne, hget, hlast, hrepl⟩
      · rw [hl, hs]
        unfold processLine
        rw [hh]
        have hbody : (if hasKey replace w0 = true
            then (Except.ok (some w0, l) : Except Unit (Option String × String))
            else paramStep replace s l (splitWords l)) = .ok (s, l) := by
          rw [if_neg (by simp [hk])]
          rw [hl, hs] at h2
          exact h2
        exact hbody
      · subst hcmd
        subst hs
        obtain ⟨hmem, hfst⟩ := lastMatch_mem hlast
        have hmemr : (c, params) ∈ replace := lookup_mem hlook
        obtain ⟨hvne, hvno, hvkey⟩ := hgood (c, params) hmemr pv hmem
        have hw1mem : w1 ∈ splitWords l := List.get?_mem hget
        obtain ⟨hpne, hpno⟩ := splitWords_token_prop hw1mem
        have hsplit : splitWords l' = [pv.2, pv.1] := by
          rw [hrepl]
          exact splitWords_repl hvne hvno (by rw [hfst]; exact hpne)
            (by rw [hfst]; exact hpno)
        unfold processLine
        rw [hsplit]
        show (if hasKey replace pv.2 = true
            then (Except.ok (some pv.2, l') : Except Unit (Option String × String))
            else paramStep replace (some c) l' [pv.2, pv.1]) = .ok (some c, l')
        rw [if_neg (by simp [hvkey])]
        unfold paramStep
        show (match List.lookup c replace with
            | none => (Except.ok (some c, l') : Except Unit (Option String × String))
            | some params =>
              match params with
              | [] => Except.ok (some c, l')
              | _ :: _ =>
                match ([pv.2, pv.1] : List String).get? 1 with
                | none => Except.error ()
                | some w1 =>
                  match lastMatch params w1 with
                  | none => Except.ok (some c, l')
                  | some pv2 => Except.ok (some c, pv2.2 ++ "\t\t\t" ++ pv2.1 ++ "\n")) =
            Except.ok (some c, l')
        rw [hlook]
        obtain ⟨q, qs, hpar⟩ := List.exists_cons_of_ne_nil hne
        subst hpar
        show (match lastMatch (q :: qs) pv.1 with
            | none => (Except.ok (some c, l') : Except Unit (Option String × String))
            | some pv2 => Except.ok (some c, pv2.2 ++ "\t\t\t" ++ pv2.1 ++ "\n")) =
            Except.ok (some c, l')
        rw [hfst, hlast]
        rw [hrepl]

theorem replaceGo_idem {replace : RSpec} (hgood : goodValues replace) :
    ∀ (lines : List String) (s : Option String) (out : List String),
      replaceGo replace s lines = .ok out →
      replaceGo replace s out = .ok out := by
  intro lines
  induction lines with
  | nil =>
    intro s out h
    have h0 := replaceGo_nil_ok h
    subst h0
    rfl
  | cons l ls ih =>
    intro s out h
    obtain ⟨s', l', out', hp, hgo, hout⟩ := replaceGo_cons_ok h
    subst hout
    have hp' : processLine replace s l' = .ok (s', l') := processLine_idem hgood hp
    have hgo' : replaceGo replace s' out' = .ok out' := ih s' out' hgo
    unfold replaceGo
    rw [hp']
    have hgoal : (match replaceGo replace s' out' with
        | .error e => (.error e : Except Unit (List String))
        | .ok o => .ok (l' :: o)) = .ok (l' :: out') := by
      rw [hgo']
    exact hgoal

/-- C5 (amended): the engine is idempotent provided every replacement value
registered in the spec is a nonempty whitespace-free token that is not
itself a command key of the spec (this holds in particular for documents
with unique parameter names per command; the document-side uniqueness alone
is not sufficient, see the counterexample where a value equal to another
command key changes the state on the second pass). -/
theorem C5_idem_amended (replace : RSpec) (hgood : goodValues replace)
    (lines out : List String)
    (h : replace_paramin_option replace lines = Except.ok out) :
    replace_paramin_option replace out = Except.ok out :=
  replaceGo_idem hgood lines none out h

/-- Spec for the C5 counterexample: the value registered for `#A / p` is the
other command key `#B`. -/
def RX5 : RSpec := [("#A", [("p", "#B")]), ("#B", [("q", "z")])]

/-- C5 counterexample: a document whose `#A` segment has parameter lines
with pairwise distinct second tokens (`p` and `q`), on which applying the
spec twice differs from applying it once: the first pass writes the value
`#B` as a line head, and the second pass reads it as a command switch. -/
theorem C5_idem_counterexample :
    replace_paramin_option RX5 ["#A\n", "v p\n", "x q\n"] =
      Except.ok ["#A\n", "#B\t\t\tp\n", "x q\n"] ∧
    replace_paramin_option RX5 ["#A\n", "#B\t\t\tp\n", "x q\n"] =
      Except.ok ["#A\n", "#B\t\t\tp\n", "z\t\t\tq\n"] ∧
    (["#A\n", "#B\t\t\tp\n", "z\t\t\tq\n"] : List String) ≠
      ["#A\n", "#B\t\t\tp\n", "x q\n"] := by
  refine ⟨rfl, rfl, ?_⟩
  decide

/-- C5 witness: a concrete good-valued spec and document where applying the
engine to its own output reproduces the output. -/
theorem C5_idem_witness :
    goodValues RW1 ∧ replace_paramin_option RW1 LW1 = Except.ok OW1 ∧
    replace_paramin_option RW1 OW1 = Except.ok OW1 :=
  ⟨by unfold goodValues; decide, rfl,
    C5_idem_amended RW1 (by unfold goodValues; decide) LW1 OW1 rfl⟩

/-!
WDC AE-index reader, embedded from `swmfpy.read_wdc_ae`
(src/swmfpy.py lines 15-44).  One input line is processed by a loop over the
60 minutes of the hour; each iteration parses a timestamp from slices of the
line's second token plus the zero-padded minute, selects the series named by
the last two characters of that token (`KeyError`, here `.error ()`, when it
is not one of AL/AE/AO/AU), and appends one (timestamp, value) pair.
`strptime_yymmddhhmm` abstracts CPython's `strptime("%y%m%d%H%M")`: ten
digits split 2-2-2-2-2 with basic range validation; the exact day-validity
envelope is immaterial to the claims.
-/

/-- Timestamp produced by the WDC reader: year, month, day, hour, minute. -/
abbrev WdcTime := Nat × Nat × Nat × Nat × Nat

/-- The dictionary built by `read_wdc_ae`, with its four fixed keys. -/
structure WdcData where
  al : List (WdcTime × Int)
  ae : List (WdcTime × Int)
  ao : List (WdcTime × Int)
  au : List (WdcTime × Int)

/-- Python `data[key]`: the series stored under a key, `none` for a
`KeyError`. -/
def getSeries (d : WdcData) (k : String) : Option (List (WdcTime × Int)) :=
  if k = "AL" then some d.al
  else if k = "AE" then some d.ae
  else if k = "AO" then some d.ao
  else if k = "AU" then some d.au
  else none

/-- Replace the series stored under a key. -/
def setSeries (d : WdcData) (k : String) (s : List (WdcTime × Int)) : WdcData :=
  if k = "AL" then { d with al := s }
  else if k = "AE" then { d with ae := s }
  else if k = "AO" then { d with ao := s }
  else if k = "AU" then { d with au := s }
  else d

/-- Abstraction of `datetime.strptime(s, "%y%m%d%H%M")`. -/
def strptime_yymmddhhmm (s : String) : Option WdcTime :=
  if s.data.length = 10 ∧ (∀ c ∈ s.data, c.isDigit = true) then
    match parseNatList (s.data.take 2), parseNatList ((s.data.drop 2).take 2),
        parseNatList ((s.data.drop 4).take 2),
        parseNatList ((s.data.drop 6).take 2),
        parseNatList ((s.data.drop 8).take 2) with
    | some y, some mo, some dy, some hh, some mi =>
      if 1 ≤ mo ∧ mo ≤ 12 ∧ 1 ≤ dy ∧ dy ≤ 31 ∧ hh ≤ 23 ∧ mi ≤ 59 then
        some (y, mo, dy, hh, mi)
      else none
    | _, _, _, _, _ => none
  else none

/-- Python `str(minute)` with the reader's zero padding. -/
def wdcMinStr (minute : Nat) : String :=
  if minute < 10 then "0" ++ toString minute else toString minute

/-- The string handed to strptime: `ind_data[1][:-5] + ind_data[1][7:-2]`
plus the padded minute. -/
def wdcTimeStr (tok1 : String) (minute : Nat) : String :=
  strDropRight tok1 5 ++ strDropRight (strDrop tok1 7) 2 ++ wdcMinStr minute

/-- One iteration of the `for minute in range(60)` loop body. -/
def wdcStepMin (toks : List String) (tok1 : String) (d : WdcData)
    (minute : Nat) : Except Unit WdcData :=
  match strptime_yymmddhhmm (wdcTimeStr tok1 minute) with
  | none => .error ()
  | some t =>
    match getSeries d (strTakeRight tok1 2) with
    | none => .error ()
    | some ser =>
      match toks.get? (3 + minute) with
      | none => .error ()
      | some vtok =>
        match pyInt vtok with
        | none => .error ()
        | some v => .ok (setSeries d (strTakeRight tok1 2) (ser ++ [(t, v)]))

/-- The minute loop. -/
def wdcMinutes (toks : List String) (tok1 : String) :
    WdcData → List Nat → Except Unit WdcData
  | d, [] => .ok d
  | d, m :: ms =>
    match wdcStepMin toks tok1 d m with
    | .error e => .error e
    | .ok d' => wdcMinutes toks tok1 d' ms

/-- Processing of one WDC input line by `read_wdc_ae` (the function folds
this over the file's lines). -/
def read_wdc_ae_line (d : WdcData) (line : String) : Except Unit WdcData :=
  match (splitWords line).get? 1 with
  | none => .error ()
  | some tok1 => wdcMinutes (splitWords line) tok1 d (List.range 60)

/-- The two-character series identifier of a line: the last two characters
of its second whitespace-delimited token. -/
def wdcIdent (line : String) : String :=
  strTakeRight ((splitWords line).getD 1 "") 2

/-- Length of the series stored under a key. -/
def seriesLen (d : WdcData) (k : String) : Nat :=
  ((getSeries d k).getD []).length

theorem getSeries_set_self {d : WdcData} {k : String}
    {ser s : List (WdcTime × Int)} (h : getSeries d k = some ser) :
    getSeries (setSeries d k s) k = some s := by
  unfold getSeries setSeries at *
  split_ifs at h ⊢ <;> simp_all

theorem getSeries_set_other {d : WdcData} {k k' : String}
    (hne : k' ≠ k) (s : List (WdcTime × Int)) :
    getSeries (setSeries d k s) k' = getSeries d k' := by
  unfold getSeries setSeries
  split_ifs <;> simp_all

theorem getSeries_eq_none {d : WdcData} {k : String}
    (h : k ∉ (["AL", "AE", "AO", "AU"] : List String)) :
    getSeries d k = none := by
  unfold getSeries
  simp only [List.mem_cons, List.not_mem_nil, or_false, not_or] at h
  obtain ⟨h1, h2, h3, h4⟩ := h
  rw [if_neg h1, if_neg h2, if_neg h3, if_neg h4]

theorem wdcStepMin_ok {toks : List String} {tok1 : String} {d : WdcData}
    {m : Nat} {d' : WdcData} (h : wdcStepMin toks tok1 d m = .ok d') :
    ∃ ser t v, getSeries d (strTakeRight tok1 2) = some ser ∧
      d' = setSeries d (strTakeRight tok1 2) (ser ++ [(t, v)]) := by
  unfold wdcStepMin at h
  repeat' split at h
  all_goals try exact Except.noConfusion h
  rename_i x1 t heq1 x2 ser heq2 x3 vtok heq3 x4 v heq4
  exact ⟨ser, t, v, heq2, (Except.ok.inj h).symm⟩

theorem wdcStepMin_bad {toks : List String} {tok1 : String} {d : WdcData}
    {m : Nat}
    (hid : strTakeRight tok1 2 ∉ (["AL", "AE", "AO", "AU"] : List String)) :
    wdcStepMin toks tok1 d m = .error () := by
  unfold wdcStepMin
  rcases hp : strptime_yymmddhhmm (wdcTimeStr tok1 m) with _ | t
  · rfl
  · show (match getSeries d (strTakeRight tok1 2) with
        | none => (Except.error () : Except Unit WdcData)
        | some ser =>
          match toks.get? (3 + m) with
          | none => Except.error ()
          | some vtok =>
            match pyInt vtok with
            | none => Except.error ()
            | some v =>
              Except.ok (setSeries d (strTakeRight tok1 2) (ser ++ [(t, v)]))) =
        Except.error ()
    rw [getSeries_eq_none hid]

theorem wdcMinutes_ok {toks : List String} {tok1 : String} :
    ∀ (ms : List Nat) (d d' : WdcData),
      wdcMinutes toks tok1 d ms = .ok d' →
      seriesLen d' (strTakeRight tok1 2) =
        seriesLen d (strTakeRight tok1 2) + ms.length ∧
      ∀ k, k ≠ strTakeRight tok1 2 → getSeries d' k = getSeries d k := by
  intro ms
  induction ms with
  | nil =>
    intro d d' h
    have h0 : d = d' := Except.ok.inj h
    subst h0
    exact ⟨rfl, fun k _ => rfl⟩
  | cons m ms' ih =>
    intro d d' h
    unfold wdcMinutes at h
    rcases hstep : wdcStepMin toks tok1 d m with e | d1
    · rw [hstep] at h
      exact Except.noConfusion h
    · rw [hstep] at h
      have h' : wdcMinutes toks tok1 d1 ms' = .ok d' := h
      obtain ⟨ser, t, v, hget, hd1⟩ := wdcStepMin_ok hstep
      obtain ⟨hlen, hframe⟩ := ih d1 d' h'
      constructor
      · rw [hlen]
        have hset : getSeries d1 (strTakeRight tok1 2) = some (ser ++ [(t, v)]) := by
          rw [hd1]
          exact getSeries_set_self hget
        unfold seriesLen
        rw [hset, hget]
        simp only [Option.getD_some, List.length_append, List.length_cons,
          List.length_singleton, List.length_nil]
        omega
      · intro k hk
        rw [hframe k hk, hd1, getSeries_set_other hk]

theorem wdcMinutes_error_all {toks : List String} {tok1 : String}
    {d : WdcData} {ms : List Nat} (hne : ms ≠ [])
    (hall : ∀ (d2 : WdcData) (m : Nat), wdcStepMin toks tok1 d2 m = .error ()) :
    wdcMinutes toks tok1 d ms = .error () := by
  obtain ⟨m, ms', rfl⟩ := List.exists_cons_of_ne_nil hne
  unfold wdcMinutes
  rw [hall d m]

theorem wdcIdent_eq {line : String} {tok1 : String}
    (h : (splitWords line).get? 1 = some tok1) :
    wdcIdent line = strTakeRight tok1 2 := by
  unfold wdcIdent
  rw [List.getD_eq_getElem?_getD, ← List.get?_eq_getElem?, h]
  rfl

/-- C7: for every processed WDC line, on success exactly 60 pairs are
appended to the single series named by the last two characters of the line's
second token and the other three series are untouched; and a line whose
identifier is not one of AL, AE, AO, AU makes the operation fail. -/
theorem C7_wdc_append :
    (∀ (d : WdcData) (line : String) (d' : WdcData),
      read_wdc_ae_line d line = .ok d' →
      seriesLen d' (wdcIdent line) = seriesLen d (wdcIdent line) + 60 ∧
      ∀ k, k ≠ wdcIdent line → getSeries d' k = getSeries d k) ∧
    (∀ (d : WdcData) (line : String),
      wdcIdent line ∉ (["AL", "AE", "AO", "AU"] : List String) →
      ∃ e, read_wdc_ae_line d line = .error e) := by
  constructor
  · intro d line d' h
    unfold read_wdc_ae_line at h
    rcases htok : (splitWords line).get? 1 with _ | tok1
    · rw [htok] at h
      exact Except.noConfusion h
    · rw [htok] at h
      have h' : wdcMinutes (splitWords line) tok1 d (List.range 60) = .ok d' := h
      rw [wdcIdent_eq htok]
      have hmain := wdcMinutes_ok (List.range 60) d d' h'
      simpa using hmain
  · intro d line hbad
    unfold read_wdc_ae_line
    rcases htok : (splitWords line).get? 1 with _ | tok1
    · exact ⟨(), rfl⟩
    · have hid : strTakeRight tok1 2 ∉ (["AL", "AE", "AO", "AU"] : List String) := by
        rw [← wdcIdent_eq htok]
        exact hbad
      refine ⟨(), ?_⟩
      show wdcMinutes (splitWords line) tok1 d (List.range 60) = .error ()
      exact wdcMinutes_error_all (by simp [List.range_eq_nil])
        (fun d2 m => wdcStepMin_bad hid)

/-- The empty WDC dictionary as initialised by `read_wdc_ae`. -/
def emptyWdc : WdcData := ⟨[], [], [], []⟩

/-- Sixty copies of the token `7` separated by blanks. -/
def wdcRepeatTok : Nat → String
  | 0 => ""
  | n + 1 => "7 " ++ wdcRepeatTok n

/-- A well-formed WDC line for the witness: second token `000101X12AL`
yields identifier `AL`, date 000101 and hour 12, followed by 60 values. -/
def wdcLineW : String := "A1 000101X12AL B3 " ++ wdcRepeatTok 60

/-- Result of processing the witness line. -/
def wdcOutW : WdcData :=
  match read_wdc_ae_line emptyWdc wdcLineW with
  | .ok d => d
  | .error _ => emptyWdc

/-- C7 witness: on the concrete line exactly 60 pairs land in the AL series
and the AE series is untouched; a line whose identifier is `XX` fails. -/
theorem C7_wdc_witness :
    read_wdc_ae_line emptyWdc wdcLineW = Except.ok wdcOutW ∧
    seriesLen wdcOutW "AL" = seriesLen emptyWdc "AL" + 60 ∧
    getSeries wdcOutW "AE" = getSeries emptyWdc "AE" ∧
    (∃ e, read_wdc_ae_line emptyWdc "A1 000101X12XX B3\n" = Except.error e) := by
  have hok : read_wdc_ae_line emptyWdc wdcLineW = Except.ok wdcOutW := rfl
  have hmain := C7_wdc_append.1 emptyWdc wdcLineW wdcOutW hok
  refine ⟨hok, ?_, ?_, ?_⟩
  · have h1 := hmain.1
    rw [show wdcIdent wdcLineW = "AL" from rfl] at h1
    exact h1
  · exact hmain.2 "AE" (by decide)
  · exact C7_wdc_append.2 emptyWdc "A1 000101X12XX B3\n" (by decide)

/-!
OMNI CSV reader, embedded from `swmfpy.read_omni_csv`
(src/swmfpy.py lines 47-93).  The model starts from the parsed row table
(the pandas CSV parsing and the time index are outside the model); each cell
is an `Option ℚ` (`none` is a NaN / missing cell).  `clean` is the `clean`
keyword argument (default on); the opt-in `coarse_filtering` pass
(`filtering` defaults to False) is not modelled, no claim needs it.  The
final `data.interpolate().bfill().ffill()` is modelled per column:
pandas linear interpolation fills an interior gap positionally between the
nearest present neighbours, holds the last present value for trailing gaps
and leaves leading gaps missing; `bfill` then fills a missing cell from the
next present one and `ffill` from the previous present one.
-/

/-- The eight value columns of the OMNI CSV table. -/
inductive OmniCol where
  | bx
  | by'
  | bz
  | vx
  | vy
  | vz
  | rho
  | temp
deriving DecidableEq

/-- One row of the parsed table. -/
def OmniRow := OmniCol → Option ℚ

/-- The cleaning threshold of a column, as a predicate on a present value:
`|B| < 80` nT, `|Vx| < 2000`, `|Vy|, |Vz| < 1000` km/s, density `< 500`
n/cc, temperature `< 1e7` K. -/
def colBound (c : OmniCol) (v : ℚ) : Prop :=
  match c with
  | .bx => |v| < 80
  | .by' => |v| < 80
  | .bz => |v| < 80
  | .vx => |v| < 2000
  | .vy => |v| < 1000
  | .vz => |v| < 1000
  | .rho => v < 500
  | .temp => v < 10 ^ 7

instance instDecColBound (c : OmniCol) (v : ℚ) : Decidable (colBound c v) :=
  match c with
  | .bx => inferInstanceAs (Decidable (|v| < 80))
  | .by' => inferInstanceAs (Decidable (|v| < 80))
  | .bz => inferInstanceAs (Decidable (|v| < 80))
  | .vx => inferInstanceAs (Decidable (|v| < 2000))
  | .vy => inferInstanceAs (Decidable (|v| < 1000))
  | .vz => inferInstanceAs (Decidable (|v| < 1000))
  | .rho => inferInstanceAs (Decidable (v < 500))
  | .temp => inferInstanceAs (Decidable (v < 10 ^ 7))

/-- The `clean bad data` block: a present cell at or beyond its threshold
becomes missing (pandas mask-and-assign aligns on the index and leaves NaN
where the mask fails); missing cells stay missing. -/
def cleanRow (r : OmniRow) : OmniRow := fun c =>
  (r c).bind (fun v => if colBound c v then some v else none)

/-- One column of a table, in row order. -/
def column (rows : List OmniRow) (c : OmniCol) : List (Option ℚ) :=
  rows.map (fun r => r c)

/-- Index and value of the last present cell strictly before `i`. -/
def prevSomeIdx (xs : List (Option ℚ)) (i : Nat) : Option (Nat × ℚ) :=
  (List.range i).reverse.findSome? (fun j =>
    match xs.get? j with
    | some (some v) => some (j, v)
    | _ => none)

/-- Index and value of the first present cell strictly after `i`. -/
def nextSomeIdx (xs : List (Option ℚ)) (i : Nat) : Option (Nat × ℚ) :=
  (List.range (xs.length - (i + 1))).findSome? (fun k =>
    match xs.get? (i + 1 + k) with
    | some (some v) => some (i + 1 + k, v)
    | _ => none)

/-- Pandas `interpolate()` (linear, forward): interior missing cells get the
linear interpolation between the neighbouring present cells, trailing
missing cells get the last present value, leading missing cells stay
missing. -/
def interpolateCol (xs : List (Option ℚ)) : List (Option ℚ) :=
  (List.range xs.length).map (fun i =>
    match xs.get? i with
    | some (some v) => some v
    | _ =>
      match prevSomeIdx xs i with
      | none => none
      | some (L, a) =>
        match nextSomeIdx xs i with
        | none => some a
        | some (R, b) =>
          some (a + (((i : ℚ) - (L : ℚ)) / ((R : ℚ) - (L : ℚ))) * (b - a)))

/-- Pandas `bfill()`. -/
def bfillCol (xs : List (Option ℚ)) : List (Option ℚ) :=
  (List.range xs.length).map (fun i =>
    match xs.get? i with
    | some (some v) => some v
    | _ => (nextSomeIdx xs i).map (fun p => p.2))

/-- Pandas `ffill()`. -/
def ffillCol (xs : List (Option ℚ)) : List (Option ℚ) :=
  (List.range xs.length).map (fun i =>
    match xs.get? i with
    | some (some v) => some v
    | _ => (prevSomeIdx xs i).map (fun p => p.2))

/-- The gap-fill pipeline `interpolate().bfill().ffill()` on one column. -/
def fillColumn (xs : List (Option ℚ)) : List (Option ℚ) :=
  ffillCol (bfillCol (interpolateCol xs))

/-- The optional cleaning pass of `read_omni_csv`. -/
def cleanTable (clean : Bool) (rows : List OmniRow) : List OmniRow :=
  if clean then rows.map cleanRow else rows

/-- `swmfpy.read_omni_csv` on the parsed row table (default
`filtering=False` path). -/
def read_omni_csv (clean : Bool) (rows : List OmniRow) : List OmniRow :=
  (List.range (cleanTable clean rows).length).map (fun i c =>
    (fillColumn (column (cleanTable clean rows) c)).getD i none)

theorem findSome?_some_ex {α β : Type} {f : α → Option β} :
    ∀ {l : List α} {b : β}, l.findSome? f = some b →
      ∃ a, a ∈ l ∧ f a = some b := by
  intro l
  induction l with
  | nil => intro b h; exact Option.noConfusion h
  | cons x xs ih =>
    intro b h
    rw [List.findSome?_cons] at h
    rcases hx : f x with _ | y
    · rw [hx] at h
      obtain ⟨a, ha, hfa⟩ := ih h
      exact ⟨a, List.mem_cons_of_mem x ha, hfa⟩
    · rw [hx] at h
      have hy : y = b := Option.some.inj h
      exact ⟨x, List.mem_cons_self x xs, by rw [hx, hy]⟩

theorem findSome?_none_all {α β : Type} {f : α → Option β} :
    ∀ {l : List α}, l.findSome? f = none → ∀ a ∈ l, f a = none := by
  intro l
  induction l with
  | nil => intro _ a ha; exact absurd ha (List.not_mem_nil a)
  | cons x xs ih =>
    intro h a ha
    rw [List.findSome?_cons] at h
    rcases hx : f x with _ | y
    · rw [hx] at h
      rcases List.mem_cons.mp ha with h1 | h1
      · subst h1; exact hx
      · exact ih h a h1
    · rw [hx] at h
      exact Option.noConfusion h

theorem get?_some_lt {α : Type} {l : List α} {n : Nat} {a : α}
    (h : l.get? n = some a) : n < l.length := by
  by_contra hge
  rw [List.get?_eq_none.mpr (Nat.le_of_not_lt hge)] at h
  exact Option.noConfusion h

theorem range_map_get? {α : Type} (f : Nat → α) {n i : Nat} (hi : i < n) :
    ((List.range n).map f).get? i = some (f i) := by
  rw [List.get?_map, List.get?_range hi]
  rfl

theorem prevSomeIdx_spec {xs : List (Option ℚ)} {i L : Nat} {a : ℚ}
    (h : prevSomeIdx xs i = some (L, a)) :
    L < i ∧ xs.get? L = some (some a) := by
  unfold prevSomeIdx at h
  obtain ⟨j, hj, hf⟩ := findSome?_some_ex h
  have hji : j < i := List.mem_range.mp (List.mem_reverse.mp hj)
  rcases hx : xs.get? j with _ | o
  · rw [hx] at hf
    exact Option.noConfusion hf
  · rcases o with _ | v
    · rw [hx] at hf
      exact Option.noConfusion hf
    · rw [hx] at hf
      have hpair : (j, v) = (L, a) := Option.some.inj hf
      injection hpair with h1 h2
      subst h1
      subst h2
      exact ⟨hji, hx⟩

theorem nextSomeIdx_spec {xs : List (Option ℚ)} {i R : Nat} {b : ℚ}
    (h : nextSomeIdx xs i = some (R, b)) :
    i < R ∧ xs.get? R = some (some b) := by
  unfold nextSomeIdx at h
  obtain ⟨k, hk, hf⟩ := findSome?_some_ex h
  rcases hx : xs.get? (i + 1 + k) with _ | o
  · rw [hx] at hf
    exact Option.noConfusion hf
  · rcases o with _ | v
    · rw [hx] at hf
      exact Option.noConfusion hf
    · rw [hx] at hf
      have hpair : (i + 1 + k, v) = (R, b) := Option.some.inj hf
      injection hpair with h1 h2
      subst h2
      constructor
      · omega
      · rw [← h1]
        exact hx

theorem between_abs {B a b x : ℚ} (ha : |a| < B) (hb : |b| < B)
    (h1 : min a b ≤ x) (h2 : x ≤ max a b) : |x| < B := by
  rw [abs_lt] at ha hb ⊢
  constructor
  · exact lt_of_lt_of_le (lt_min ha.1 hb.1) h1
  · exact lt_of_le_of_lt h2 (max_lt ha.2 hb.2)

theorem between_lt {B a b x : ℚ} (ha : a < B) (hb : b < B)
    (h2 : x ≤ max a b) : x < B :=
  lt_of_le_of_lt h2 (max_lt ha hb)

theorem colBound_between {c : OmniCol} {a b x : ℚ} (ha : colBound c a)
    (hb : colBound c b) (h1 : min a b ≤ x) (h2 : x ≤ max a b) :
    colBound c x := by
  cases c
  case bx => exact between_abs ha hb h1 h2
  case by' => exact between_abs ha hb h1 h2
  case bz => exact between_abs ha hb h1 h2
  case vx => exact between_abs ha hb h1 h2
  case vy => exact between_abs ha hb h1 h2
  case vz => exact between_abs ha hb h1 h2
  case rho => exact between_lt ha hb h2
  case temp => exact between_lt ha hb h2

theorem interp_between {a b : ℚ} {L i R : Nat} (hLi : L < i) (hiR : i < R) :
    min a b ≤ a + (((i : ℚ) - (L : ℚ)) / ((R : ℚ) - (L : ℚ))) * (b - a) ∧
    a + (((i : ℚ) - (L : ℚ)) / ((R : ℚ) - (L : ℚ))) * (b - a) ≤ max a b := by
  have hL : (L : ℚ) < (i : ℚ) := by exact_mod_cast hLi
  have hR : (i : ℚ) < (R : ℚ) := by exact_mod_cast hiR
  have hden : (0 : ℚ) < (R : ℚ) - (L : ℚ) := by linarith
  have ht0 : 0 < ((i : ℚ) - (L : ℚ)) / ((R : ℚ) - (L : ℚ)) :=
    div_pos (by linarith) hden
  have ht1 : ((i : ℚ) - (L : ℚ)) / ((R : ℚ) - (L : ℚ)) < 1 :=
    (div_lt_one hden).mpr (by linarith)
  constructor
  · rcases le_total a b with hab | hab
    · rw [min_eq_left hab]
      nlinarith [mul_nonneg ht0.le (sub_nonneg.mpr hab)]
    · rw [min_eq_right hab]
      nlinarith [mul_nonneg (sub_nonneg.mpr ht1.le) (sub_nonneg.mpr hab)]
  · rcases le_total a b with hab | hab
    · rw [max_eq_right hab]
      nlinarith [mul_nonneg (sub_nonneg.mpr ht1.le) (sub_nonneg.mpr hab)]
    · rw [max_eq_left hab]
      nlinarith [mul_nonneg ht0.le (sub_nonneg.mpr hab)]

/-- Every present cell of a column satisfies the column's bound. -/
def colOK (c : OmniCol) (xs : List (Option ℚ)) : Prop :=
  ∀ i v, xs.get? i = some (some v) → colBound c v

theorem colOK_cleanRow (rows : List OmniRow) (c : OmniCol) :
    colOK c (column (rows.map cleanRow) c) := by
  intro i v hv
  unfold column at hv
  rw [List.get?_map] at hv
  rcases hr : (rows.map cleanRow).get? i with _ | r
  · rw [hr] at hv
    exact Option.noConfusion hv
  · rw [hr] at hv
    have hrc : r c = some v := Option.some.inj hv
    rw [List.get?_map] at hr
    rcases hr0 : rows.get? i with _ | r0
    · rw [hr0] at hr
      exact Option.noConfusion hr
    · rw [hr0] at hr
      have hr' : cleanRow r0 = r := Option.some.inj hr
      rw [← hr'] at hrc
      unfold cleanRow at hrc
      rcases hc0 : r0 c with _ | w
      · rw [hc0] at hrc
        exact Option.noConfusion hrc
      · rw [hc0] at hrc
        have hrc2 : (if colBound c w then some w else none) = some v := hrc
        by_cases hbw : colBound c w
        · rw [if_pos hbw] at hrc2
          have : w = v := Option.some.inj hrc2
          exact this ▸ hbw
        · rw [if_neg hbw] at hrc2
          exact Option.noConfusion hrc2

theorem colOK_interpolate {c : OmniCol} {xs : List (Option ℚ)}
    (h : colOK c xs) : colOK c (interpolateCol xs) := by
  intro i v hv
  unfold interpolateCol at hv
  have hi : i < xs.length := by
    have := get?_some_lt hv
    simpa using this
  rw [range_map_get? _ hi] at hv
  have hv' := Option.some.inj hv
  rcases hx : xs.get? i with _ | o
  · exact absurd (List.get?_eq_none.mp hx) (Nat.not_le_of_lt hi)
  · rcases o with _ | w
    · rw [hx] at hv'
      rcases hp : prevSomeIdx xs i with _ | pLa
      · rw [hp] at hv'
        exact Option.noConfusion hv'
      · obtain ⟨L, a⟩ := pLa
        rw [hp] at hv'
        obtain ⟨hLi, hxL⟩ := prevSomeIdx_spec hp
        have hba : colBound c a := h L a hxL
        rcases hn : nextSomeIdx xs i with _ | pRb
        · rw [hn] at hv'
          have : a = v := Option.some.inj hv'
          exact this ▸ hba
        · obtain ⟨R, b⟩ := pRb
          rw [hn] at hv'
          obtain ⟨hiR, hxR⟩ := nextSomeIdx_spec hn
          have hbb : colBound c b := h R b hxR
          have hval := Option.some.inj hv'
          obtain ⟨h1, h2⟩ := @interp_between a b L i R hLi hiR
          exact hval ▸ colBound_between hba hbb h1 h2
    · rw [hx] at hv'
      have : w = v := Option.some.inj hv'
      exact this ▸ h i w hx

theorem colOK_bfill {c : OmniCol} {xs : List (Option ℚ)}
    (h : colOK c xs) : colOK c (bfillCol xs) := by
  intro i v hv
  unfold bfillCol at hv
  have hi : i < xs.length := by
    have := get?_some_lt hv
    simpa using this
  rw [range_map_get? _ hi] at hv
  have hv' := Option.some.inj hv
  rcases hx : xs.get? i with _ | o
  · exact absurd (List.get?_eq_none.mp hx) (Nat.not_le_of_lt hi)
  · rcases o with _ | w
    · rw [hx] at hv'
      rcases hn : nextSomeIdx xs i with _ | pRb
      · rw [hn] at hv'
        exact Option.noConfusion hv'
      · obtain ⟨R, b⟩ := pRb
        rw [hn] at hv'
        obtain ⟨hiR, hxR⟩ := nextSomeIdx_spec hn
        have : b = v := Option.some.inj hv'
        exact this ▸ h R b hxR
    · rw [hx] at hv'
      have : w = v := Option.some.inj hv'
      exact this ▸ h i w hx

theorem colOK_ffill {c : OmniCol} {xs : List (Option ℚ)}
    (h : colOK c xs) : colOK c (ffillCol xs) := by
  intro i v hv
  unfold ffillCol at hv
  have hi : i < xs.length := by
    have := get?_some_lt hv
    simpa using this
  rw [range_map_get? _ hi] at hv
  have hv' := Option.some.inj hv
  rcases hx : xs.get? i with _ | o
  · exact absurd (List.get?_eq_none.mp hx) (Nat.not_le_of_lt hi)
  · rcases o with _ | w
    · rw [hx] at hv'
      rcases hp : prevSomeIdx xs i with _ | pLa
      · rw [hp] at hv'
        exact Option.noConfusion hv'
      · obtain ⟨L, a⟩ := pLa
        rw [hp] at hv'
        obtain ⟨hLi, hxL⟩ := prevSomeIdx_spec hp
        have : a = v := Option.some.inj hv'
        exact this ▸ h L a hxL
    · rw [hx] at hv'
      have : w = v := Option.some.inj hv'
      exact this ▸ h i w hx

/-- C3: with `clean=true` (the default, `filtering` off) no row is dropped
(the output has one row per input row) and every present output cell — also
after gap filling — satisfies its column's cleaning bound. -/
theorem C3_clean_bounds (rows : List OmniRow) :
    (read_omni_csv true rows).length = rows.length ∧
    ∀ i r c v, (read_omni_csv true rows).get? i = some r → r c = some v →
      colBound c v := by
  constructor
  · simp [read_omni_csv, cleanTable]
  · intro i r c v hr hv
    unfold read_omni_csv at hr
    have hi : i < (cleanTable true rows).length := by
      have := get?_some_lt hr
      simpa using this
    rw [range_map_get? _ hi] at hr
    have hreq : (fun c => (fillColumn (column (cleanTable true rows) c)).getD
        i none) = r := Option.some.inj hr
    rw [← hreq] at hv
    have hv2 : (fillColumn (column (cleanTable true rows) c)).getD i none =
        some v := hv
    rw [List.getD_eq_getElem?_getD, ← List.get?_eq_getElem?] at hv2
    rcases hg : (fillColumn (column (cleanTable true rows) c)).get? i with _ | o
    · rw [hg] at hv2
      exact Option.noConfusion hv2
    · rw [hg] at hv2
      have ho : o = some v := hv2
      rw [ho] at hg
      have h0 : colOK c (column (cleanTable true rows) c) :=
        colOK_cleanRow rows c
      exact colOK_ffill (colOK_bfill (colOK_interpolate h0)) i v hg

/-- Row used by OMNI witnesses: every cell present with value 10, inside all
cleaning bounds. -/
def rowW : OmniRow := fun _ => some 10

/-- C3 witness: one concrete row, length preserved and the density cell's
bound established through the theorem. -/
theorem C3_clean_bounds_witness :
    (read_omni_csv true [rowW]).length = [rowW].length ∧
    colBound OmniCol.rho 10 :=
  ⟨(C3_clean_bounds [rowW]).1,
   (C3_clean_bounds [rowW]).2 0
     ((read_omni_csv true [rowW]).getD 0 (fun _ => none)) OmniCol.rho 10
     rfl rfl⟩

theorem present_interp {xs : List (Option ℚ)} {i : Nat} {v : ℚ}
    (h : xs.get? i = some (some v)) :
    (interpolateCol xs).get? i = some (some v) := by
  have hi : i < xs.length := get?_some_lt h
  unfold interpolateCol
  rw [range_map_get? _ hi, h]

theorem present_bfill {xs : List (Option ℚ)} {i : Nat} {v : ℚ}
    (h : xs.get? i = some (some v)) :
    (bfillCol xs).get? i = some (some v) := by
  have hi : i < xs.length := get?_some_lt h
  unfold bfillCol
  rw [range_map_get? _ hi, h]

theorem bfill_present_le {ys : List (Option ℚ)} {k i : Nat} {v : ℚ}
    (hk : ys.get? k = some (some v)) (hik : i ≤ k) (hi : i < ys.length) :
    ∃ w, (bfillCol ys).get? i = some (some w) := by
  unfold bfillCol
  rw [range_map_get? _ hi]
  rcases hx : ys.get? i with _ | o
  · exact absurd (List.get?_eq_none.mp hx) (Nat.not_le_of_lt hi)
  · rcases o with _ | u
    · have hik' : i < k := by
        rcases Nat.lt_or_ge i k with h1 | h1
        · exact h1
        · have heq : i = k := Nat.le_antisymm hik h1
          have hcontr := hk.symm.trans (heq ▸ hx)
          exact Option.noConfusion (Option.some.inj hcontr)
      have hn : (nextSomeIdx ys i).isSome := by
        unfold nextSomeIdx
        by_contra hno
        have hnone := Option.not_isSome_iff_eq_none.mp hno
        have hall := findSome?_none_all hnone (k - (i + 1))
          (List.mem_range.mpr (by have := get?_some_lt hk; omega))
        rw [show i + 1 + (k - (i + 1)) = k from by omega, hk] at hall
        exact Option.noConfusion hall
      obtain ⟨p, hp⟩ := Option.isSome_iff_exists.mp hn
      rw [hp]
      exact ⟨p.2, rfl⟩
    · exact ⟨u, rfl⟩

theorem prev_isSome_of {zs : List (Option ℚ)} {k i : Nat} {v : ℚ}
    (hik : k < i) (hzk : zs.get? k = some (some v)) :
    (prevSomeIdx zs i).isSome := by
  unfold prevSomeIdx
  by_contra hno
  have hnone := Option.not_isSome_iff_eq_none.mp hno
  have hall := findSome?_none_all hnone k
    (by rw [List.mem_reverse]; exact List.mem_range.mpr hik)
  rw [hzk] at hall
  exact Option.noConfusion hall

theorem fillColumn_complete {xs : List (Option ℚ)} {k : Nat} {v : ℚ}
    (hk : xs.get? k = some (some v)) {i : Nat} (hi : i < xs.length) :
    ∃ w, (fillColumn xs).get? i = some (some w) := by
  have hk1 : (interpolateCol xs).get? k = some (some v) := present_interp hk
  have hilen : i < (interpolateCol xs).length := by
    simpa [interpolateCol] using hi
  have hblen : i < (bfillCol (interpolateCol xs)).length := by
    simpa [bfillCol] using hilen
  rcases hbz : (bfillCol (interpolateCol xs)).get? i with _ | o
  · exact absurd (List.get?_eq_none.mp hbz) (Nat.not_le_of_lt hblen)
  · rcases o with _ | w
    · have hik : k < i := by
        by_contra hle
        obtain ⟨w, hw⟩ := bfill_present_le hk1 (Nat.le_of_not_lt hle) hilen
        rw [hw] at hbz
        exact Option.noConfusion (Option.some.inj hbz)
      have hbk : (bfillCol (interpolateCol xs)).get? k = some (some v) :=
        present_bfill hk1
      have hprev := prev_isSome_of hik hbk
      obtain ⟨p, hp⟩ := Option.isSome_iff_exists.mp hprev
      refine ⟨p.2, ?_⟩
      unfold fillColumn ffillCol
      rw [range_map_get? _ hblen, hbz, hp]
      rfl
    · refine ⟨w, ?_⟩
      unfold fillColumn ffillCol
      rw [range_map_get? _ hblen, hbz]

/-- C4 (amended): for every column that still has at least one present cell
after cleaning, every cell of that column in the returned table is present
(filled by interpolation, back fill or forward fill).  The unconditional
claim is false: a column that is entirely missing after cleaning stays
missing, see the counterexample. -/
theorem C4_fill_amended (rows : List OmniRow) (c : OmniCol)
    (hpresent : ∃ k v, (column (rows.map cleanRow) c).get? k = some (some v)) :
    ∀ i r, (read_omni_csv true rows).get? i = some r → (r c).isSome = true := by
  obtain ⟨k, v, hk⟩ := hpresent
  intro i r hr
  unfold read_omni_csv at hr
  have hi : i < (cleanTable true rows).length := by
    have := get?_some_lt hr
    simpa using this
  rw [range_map_get? _ hi] at hr
  have hreq : (fun c => (fillColumn (column (cleanTable true rows) c)).getD
      i none) = r := Option.some.inj hr
  have hk' : (column (cleanTable true rows) c).get? k = some (some v) := hk
  have hilen : i < (column (cleanTable true rows) c).length := by
    simpa [column] using hi
  obtain ⟨w, hw⟩ := fillColumn_complete hk' hilen
  rw [← hreq]
  show ((fillColumn (column (cleanTable true rows) c)).getD i none).isSome = true
  rw [List.getD_eq_getElem?_getD, ← List.get?_eq_getElem?, hw]
  rfl

/-- Row for the C4 counterexample: every cell 100; Bz is then discarded by
cleaning (|100| is not < 80) while for example the density cell survives. -/
def rowHundred : OmniRow := fun _ => some 100

/-- C4 counterexample: on a one-row table whose Bz value is 100, the
returned table still has a missing Bz cell — interpolation, bfill and ffill
have no present value in that column to use. -/
theorem C4_fill_counterexample :
    (read_omni_csv true [rowHundred]).map (fun r => r OmniCol.bz) = [none] ∧
    rowHundred OmniCol.bz = some 100 := by
  constructor
  · rfl
  · rfl

/-- C4 witness: for the in-bounds row the Bz column survives cleaning, so
the returned cell is present. -/
theorem C4_fill_witness :
    (((read_omni_csv true [rowW]).getD 0 (fun _ => none)) OmniCol.bz).isSome =
      true :=
  C4_fill_amended [rowW] OmniCol.bz ⟨0, 10, rfl⟩ 0
    ((read_omni_csv true [rowW]).getD 0 (fun _ => none)) rfl

/-!
Remote OMNI fetch, embedded from `swmfpy.spdf.get_omni_data`
(src/swmfpy/spdf.py lines 17-114).  The month enumeration models
`rrule.rrule(rrule.MONTHLY, dtstart=time_from, until=time_to)`: one
occurrence per month step keeping `time_from`'s day-of-month and time,
skipping months that lack that day, and stopping once the anchored date
exceeds `time_to` (seconds and microseconds are truncated to minutes in the
model).  Row parsing keeps the value tokens as strings — the `float(value)`
conversion is immaterial to the claims — and `strptime('%Y %j %H %M')` is
modelled by numeric parsing plus day-of-year resolution.
-/

/-- A Python `datetime` to minute resolution. -/
structure PyDateTime where
  year : Nat
  month : Nat
  day : Nat
  hour : Nat
  minute : Nat
deriving DecidableEq

/-- Chronological (lexicographic) order on datetimes. -/
def dtLe (a b : PyDateTime) : Prop :=
  a.year < b.year ∨ (a.year = b.year ∧ (a.month < b.month ∨ (a.month = b.month ∧
    (a.day < b.day ∨ (a.day = b.day ∧ (a.hour < b.hour ∨ (a.hour = b.hour ∧
      a.minute ≤ b.minute)))))))

instance instDecDtLe (a b : PyDateTime) : Decidable (dtLe a b) := by
  unfold dtLe
  infer_instance

/-- Days in a calendar month (Gregorian). -/
def daysInMonth (y m : Nat) : Nat :=
  if m = 2 then (if y % 4 = 0 ∧ (y % 100 ≠ 0 ∨ y % 400 = 0) then 29 else 28)
  else if m = 4 ∨ m = 6 ∨ m = 9 ∨ m = 11 then 30 else 31

/-- Linear month index of a datetime. -/
def monthIndex (d : PyDateTime) : Nat := d.year * 12 + (d.month - 1)

/-- Add `k` months to a (year, month) pair. -/
def addMonths (y m k : Nat) : Nat × Nat :=
  ((y * 12 + (m - 1) + k) / 12, (y * 12 + (m - 1) + k) % 12 + 1)

/-- The dateutil MONTHLY recurrence between `tf` and `tt` (inclusive). -/
def rruleMonthly (tf tt : PyDateTime) : List PyDateTime :=
  (List.range (monthIndex tt + 1 - monthIndex tf)).filterMap (fun k =>
    if tf.day ≤ daysInMonth (addMonths tf.year tf.month k).1
        (addMonths tf.year tf.month k).2 then
      if dtLe ⟨(addMonths tf.year tf.month k).1,
          (addMonths tf.year tf.month k).2, tf.day, tf.hour, tf.minute⟩ tt then
        some ⟨(addMonths tf.year tf.month k).1,
          (addMonths tf.year tf.month k).2, tf.day, tf.hour, tf.minute⟩
      else none
    else none)

/-- Python `str(date.month).zfill(2)`. -/
def zfill2 (n : Nat) : String :=
  if n < 10 then "0" ++ toString n else toString n

/-- The month-named resources requested by `get_omni_data` (one HTTP GET
each, appended to the fixed base URL). -/
def omniRequests (tf tt : PyDateTime) : List String :=
  (rruleMonthly tf tt).map (fun d =>
    "omni_min" ++ toString d.year ++ zfill2 d.month ++ ".asc")

/-- Resolve a day-of-year within year `y`, walking the months on bounded
fuel. -/
def doyToMDAux (y : Nat) : Nat → Nat → Nat → Option (Nat × Nat)
  | 0, _, _ => none
  | fuel + 1, m, d =>
    if d = 0 then none
    else if d ≤ daysInMonth y m then some (m, d)
    else doyToMDAux y fuel (m + 1) (d - daysInMonth y m)

/-- Month and day of a day-of-year. -/
def doyToMonthDay (y doy : Nat) : Option (Nat × Nat) :=
  doyToMDAux y 12 1 doy

/-- Parse one OMNI ASCII line: year, day of year, hour, minute, then the
value columns (`cols[4:len(col_names)+4]`, 33 columns). -/
def parseOmniLine (line : String) : Option (PyDateTime × List String) :=
  match splitWords line with
  | c0 :: c1 :: c2 :: c3 :: rest =>
    match pyNat c0, pyNat c1, pyNat c2, pyNat c3 with
    | some y, some doy, some hh, some mm =>
      if hh ≤ 23 ∧ mm ≤ 59 then
        match doyToMonthDay y doy with
        | some (mo, dy) => some (⟨y, mo, dy, hh, mm⟩, rest.take 33)
        | none => none
      else none
    | _, _, _, _ => none
  | _ => none

/-- The row loop of `get_omni_data` over the fetched lines of one or more
months: parse each line's timestamp and keep the row exactly when
`time >= time_from and time <= time_to`. -/
def get_omni_data_rows (tf tt : PyDateTime) :
    List String → Except Unit (List (PyDateTime × List String))
  | [] => .ok []
  | l :: ls =>
    match parseOmniLine l with
    | none => .error ()
    | some (t, vals) =>
      match get_omni_data_rows tf tt ls with
      | .error e => .error e
      | .ok rows =>
        .ok (if dtLe tf t ∧ dtLe t tt then (t, vals) :: rows else rows)

/-- C8 counterexample: for the range 2000-01-15 to 2000-03-10 only months
200001 and 200002 are requested, although March 2000 intersects the
interval (2000-03-01 lies inside it); there is no request for 200003, so
the code does not issue one request per calendar month spanning the
interval. -/
theorem C8_month_counterexample :
    omniRequests ⟨2000, 1, 15, 0, 0⟩ ⟨2000, 3, 10, 0, 0⟩ =
      ["omni_min200001.asc", "omni_min200002.asc"] ∧
    dtLe ⟨2000, 1, 15, 0, 0⟩ ⟨2000, 3, 1, 0, 0⟩ ∧
    dtLe ⟨2000, 3, 1, 0, 0⟩ ⟨2000, 3, 10, 0, 0⟩ ∧
    "omni_min200003.asc" ∉ omniRequests ⟨2000, 1, 15, 0, 0⟩ ⟨2000, 3, 10, 0, 0⟩ := by
  refine ⟨rfl, ?_, ?_, ?_⟩ <;> decide

/-- C8 (amended): the fetch issues one request per occurrence of the
monthly recurrence anchored at `time_from`'s day and time — for the
single-day range 2000-01-01 this is exactly the one request for month
200001 — and every returned row's timestamp `t` satisfies
`time_from ≤ t ≤ time_to`.  (Not every calendar month spanning the interval
is requested, see the counterexample.) -/
theorem C8_month_amended :
    omniRequests ⟨2000, 1, 1, 0, 0⟩ ⟨2000, 1, 1, 0, 0⟩ = ["omni_min200001.asc"] ∧
    ∀ (tf tt : PyDateTime) (lines : List String)
      (rows : List (PyDateTime × List String)),
      get_omni_data_rows tf tt lines = .ok rows →
      ∀ r ∈ rows, dtLe tf r.1 ∧ dtLe r.1 tt := by
  constructor
  · rfl
  · intro tf tt lines
    induction lines with
    | nil =>
      intro rows h r hr
      have h0 : rows = [] := (Except.ok.inj h).symm
      subst h0
      exact absurd hr (List.not_mem_nil r)
    | cons l ls ih =>
      intro rows h r hr
      unfold get_omni_data_rows at h
      rcases hp : parseOmniLine l with _ | tv
      · rw [hp] at h
        exact Except.noConfusion h
      · obtain ⟨t, vals⟩ := tv
        rw [hp] at h
        have h2 : (match get_omni_data_rows tf tt ls with
            | .error e =>
              (.error e : Except Unit (List (PyDateTime × List String)))
            | .ok rows2 =>
              .ok (if dtLe tf t ∧ dtLe t tt then (t, vals) :: rows2
                else rows2)) = .ok rows := h
        rcases hgo : get_omni_data_rows tf tt ls with e | rows2
        · rw [hgo] at h2
          exact Except.noConfusion h2
        · rw [hgo] at h2
          have h3 : (if dtLe tf t ∧ dtLe t tt then (t, vals) :: rows2
              else rows2) = rows := Except.ok.inj h2
          by_cases hc : dtLe tf t ∧ dtLe t tt
          · rw [if_pos hc] at h3
            subst h3
            rcases List.mem_cons.mp hr with h4 | h4
            · subst h4
              exact hc
            · exact ih rows2 hgo r h4
          · rw [if_neg hc] at h3
            subst h3
            exact ih rows2 hgo r hr

/-- C8 witness: one concrete in-range line is kept, and the theorem yields
its bounds. -/
theorem C8_month_witness :
    get_omni_data_rows ⟨2000, 1, 1, 0, 0⟩ ⟨2000, 1, 1, 0, 0⟩
      ["2000 1 0 0 5.3"] = Except.ok [(⟨2000, 1, 1, 0, 0⟩, ["5.3"])] ∧
    dtLe ⟨2000, 1, 1, 0, 0⟩ (⟨2000, 1, 1, 0, 0⟩ : PyDateTime) ∧
    dtLe (⟨2000, 1, 1, 0, 0⟩ : PyDateTime) ⟨2000, 1, 1, 0, 0⟩ := by
  have hok : get_omni_data_rows ⟨2000, 1, 1, 0, 0⟩ ⟨2000, 1, 1, 0, 0⟩
      ["2000 1 0 0 5.3"] = Except.ok [(⟨2000, 1, 1, 0, 0⟩, ["5.3"])] := rfl
  have hmem := C8_month_amended.2 ⟨2000, 1, 1, 0, 0⟩ ⟨2000, 1, 1, 0, 0⟩
    ["2000 1 0 0 5.3"] [(⟨2000, 1, 1, 0, 0⟩, ["5.3"])] hok
    (⟨2000, 1, 1, 0, 0⟩, ["5.3"]) (List.mem_singleton.mpr rfl)
  exact ⟨hok, hmem.1, hmem.2⟩

/-!
Auxiliary radiation-belt header of `swmfpy.write_sw_input`
(src/swmfpy.py lines 140-155).  The code sets `swlag_time = None` and then
tests `if swlag_time in kwargs:` — a membership test of the value `None`
against the keyword-argument keys, which are always strings.  The probe is
modelled as `Option String` (`none` is Python `None`); each key compares
equal to the probe only when the probe is that string.  The `t=0` reference
line (built with strftime from the first record) is passed in as a string;
the dead lookup branch fetches the kwarg value.
-/

/-- Header lines written to `RB.SWIMF` before the data rows. -/
def write_sw_input_rb_header (t0line : String)
    (kwargs : List (String × Int)) : List String :=
  [t0line] ++
  (if kwargs.any (fun kv => (none : Option String) == some kv.1) then
    [toString ((kwargs.lookup "swlag_time").getD 0) ++ "  " ++
      "! swlag time in seconds " ++ "for sw travel to subsolar\n"]
  else []) ++
  ["11902 data                   P+ NP NONLIN    P+ V (MOM)\n",
   "dd mm yyyy hh mm ss.ms           #/cc          km/s\n"]

/-- C9 (code bug): even when the caller supplies `swlag_time`, the header
written to the auxiliary radiation-belt file contains no travel-time line —
only the t=0 reference line and the two fixed descriptive lines — because
the code tests `None in kwargs` instead of `'swlag_time' in kwargs`.  This
contradicts the claim's (and the spec's intended) "if and only if". -/
theorem C9_swlag_code_bug :
    write_sw_input_rb_header
        "2000, 001, 00 ! iyear, iday, ihour corresponding to t=0\n"
        [("swlag_time", 7200)] =
      ["2000, 001, 00 ! iyear, iday, ihour corresponding to t=0\n",
       "11902 data                   P+ NP NONLIN    P+ V (MOM)\n",
       "dd mm yyyy hh mm ss.ms           #/cc          km/s\n"] ∧
    (∀ (t0line : String) (kwargs : List (String × Int)),
      write_sw_input_rb_header t0line kwargs =
        [t0line,
         "11902 data                   P+ NP NONLIN    P+ V (MOM)\n",
         "dd mm yyyy hh mm ss.ms           #/cc          km/s\n"]) := by
  constructor
  · rfl
  · intro t0line kwargs
    unfold write_sw_input_rb_header
    have hfalse : kwargs.any (fun kv => (none : Option String) == some kv.1) =
        false := by
      rw [List.any_eq_false]
      intro kv _
      rw [Bool.not_eq_true]
      rfl
    rw [hfalse]
    rfl
